import Mathlib

/-!
Verification of the iqseq sequence-clustering core (`iqseq_utils.py`).

A `Sequence` is a read, modelled as a list of characters.  A frequency
table (`Counter`) is an association list from sequences to counts with
Python `dict`/`Counter` access semantics: lookup of a missing key gives 0,
assignment updates the first occurrence in place or appends a fresh entry.
The Biopython trie is modelled as an association list from keys to a sum
type `TrieVal` distinguishing integer values (`canon`, a full sequence
carrying its count) from string values (`sub`, a window pointing at its
parent sequence), mirroring the `type(v) is int` test in the source.
-/

abbrev Sequence := List Char

abbrev Counter := List (Sequence × Nat)

/-- Python `counter[k]` read: value of the first entry with key `k`, else 0. -/
def cget : Counter → Sequence → Nat
  | [], _ => 0
  | (k, v) :: rest, x => if k = x then v else cget rest x

/-- Python `counter[k] = v`: overwrite the first entry with key `k`, else append. -/
def cset : Counter → Sequence → Nat → Counter
  | [], x, v => [(x, v)]
  | (k, w) :: rest, x, v =>
    if k = x then (k, v) :: rest else (k, w) :: cset rest x v

/-- Python `list(counter)`: the key list, in table order. -/
def keys (c : Counter) : List Sequence := c.map Prod.fst

/-- Sum of all counts in the table. -/
def total (c : Counter) : Nat := (c.map Prod.snd).sum

/-- Python `counter + Counter()` (line 103/141): keep only positive counts. -/
def cstrip (c : Counter) : Counter := c.filter fun p => decide (0 < p.2)

inductive TrieVal where
  | canon : Nat → TrieVal
  | sub : Sequence → TrieVal
deriving DecidableEq, Repr

abbrev Trie := List (Sequence × TrieVal)

/-- Trie lookup: first entry with the given key. -/
def tgetEntry : Trie → Sequence → Option TrieVal
  | [], _ => none
  | (k, v) :: rest, x => if k = x then some v else tgetEntry rest x

/-- Python `t.has_key(k)`. -/
def thas (t : Trie) (k : Sequence) : Bool := (tgetEntry t k).isSome

/-- Python `t[k] = v`: overwrite the first entry with key `k`, else append. -/
def tput : Trie → Sequence → TrieVal → Trie
  | [], x, v => [(x, v)]
  | (k, w) :: rest, x, v =>
    if k = x then (k, v) :: rest else (k, w) :: tput rest x v

/-- `chunker('AAAABBBC', 4) --> AAAA AAAB AABB ABBB BBBC` (line 65): all
contiguous windows of length `n`, sliding step 1. -/
def chunker (s : Sequence) (n : Nat) : List Sequence :=
  (List.range (s.length + 1 - n)).map fun i => (s.drop i).take n

/-- Stable insertion of a sequence into a length-descending sorted list:
models one step of Python's stable `seqs.sort(key=len, reverse=True)`. -/
def insLenDesc (a : Sequence) : List Sequence → List Sequence
  | [] => [a]
  | b :: bs => if b.length ≤ a.length then a :: b :: bs else b :: insLenDesc a bs

/-- Python `seqs.sort(key=len, reverse=True)` (stable). -/
def sortLenDesc (l : List Sequence) : List Sequence := l.foldr insLenDesc []

/-- Insertion into an ascending duplicate-free list of naturals. -/
def insNatSorted (n : Nat) : List Nat → List Nat
  | [] => [n]
  | m :: ms =>
    if n < m then n :: m :: ms else if n = m then m :: ms else m :: insNatSorted n ms

/-- Python `sorted(set(l))` for a list of naturals. -/
def sortedSet (l : List Nat) : List Nat := l.foldr insNatSorted []

/-- `construct_simple_trie` (lines 69-73): every sequence inserted with its
count, in table order. -/
def construct_simple_trie (counter : Counter) : Trie :=
  counter.foldl (fun t p => tput t p.1 (TrieVal.canon p.2)) []

/-- One window insertion attempt of `construct_complex_trie` (lines 85-90):
first writer wins; the sequence's own window claims `canon`, any other
window claims `sub` pointing at the sequence. -/
def trieWindowStep (counter : Counter) (seq : Sequence) (t : Trie) (w : Sequence) : Trie :=
  if thas t w then t
  else if w = seq then tput t seq (TrieVal.canon (cget counter seq))
  else tput t w (TrieVal.sub seq)

/-- All window insertions of one sequence at one length (line 85). -/
def trieLenStep (counter : Counter) (seq : Sequence) (t : Trie) (l : Nat) : Trie :=
  if seq.length < l then t
  else (chunker seq l).foldl (trieWindowStep counter seq) t

/-- All insertions of one sequence, every registered length in ascending
supplied order (lines 82-90). -/
def trieSeqStep (counter : Counter) (lengths : List Nat) (t : Trie) (seq : Sequence) : Trie :=
  lengths.foldl (trieLenStep counter seq) t

/-- `construct_complex_trie` (lines 75-91): sequences longest-first; default
lengths are the sorted distinct lengths of all sequences. -/
def construct_complex_trie (counter : Counter) (lengths : Option (List Nat)) : Trie :=
  let seqs := sortLenDesc (keys counter)
  let ls := match lengths with
    | some ls => ls
    | none => sortedSet (seqs.map List.length)
  seqs.foldl (trieSeqStep counter ls) []

/-- Modelled from the spec: `Bio.triefind.find(seq, t)` is used only for the
matched key, so we return every trie key that occurs as an exact contiguous
substring of `seq`, in index order. -/
def triefind_find (seq : Sequence) (t : Trie) : List Sequence :=
  (t.map Prod.fst).filter fun k => decide (k <:+: seq)

/-- One merge step of `process_exact_substring` (lines 100-102): a match of
the sequence's own full length is skipped, any other match donates its
current count to the sequence and is zeroed. -/
def exactStep (seq : Sequence) (c : Counter) (m : Sequence) : Counter :=
  if m.length = seq.length then c
  else cset (cset c seq (cget c seq + cget c m)) m 0

/-- Processing of one sequence by `process_exact_substring` (lines 99-102). -/
def exactSeq (t : Trie) (c : Counter) (seq : Sequence) : Counter :=
  (triefind_find seq t).foldl (exactStep seq) c

/-- `process_exact_substring` (lines 93-104): longest-first merge of exact
substring matches, then `counter += Counter()` keeps positive counts only. -/
def process_exact_substring (counter : Counter) (t : Trie) : Counter :=
  cstrip ((sortLenDesc (keys counter)).foldl (exactSeq t) counter)

/-- Levenshtein edit distance, fuelled for structural recursion.  Every
recursive call lowers the summed length by at least one while spending one
unit of fuel, so with fuel at least the summed length the zero-fuel stub is
never reached. -/
def levFuel : Nat → List Char → List Char → Nat
  | _, [], ys => ys.length
  | _, x :: xs, [] => (x :: xs).length
  | 0, _, _ => 0
  | fuel + 1, x :: xs, y :: ys =>
    if x = y then levFuel fuel xs ys
    else 1 + min (levFuel fuel xs (y :: ys)) (min (levFuel fuel (x :: xs) ys) (levFuel fuel xs ys))

/-- Classic Levenshtein edit distance: substitutions, insertions and
deletions each cost 1. -/
def lev (xs ys : List Char) : Nat := levFuel (xs.length + ys.length) xs ys

/-- Modelled from the spec: `Bio.trie.get_approximate(seq, n)` returns every
stored entry within `n` mismatches of `seq` (a mismatch being a letter
substitution, insertion or deletion), with its value and distance, in index
order. -/
def get_approximate (t : Trie) (seq : Sequence) (n : Nat) : List (Sequence × TrieVal × Nat) :=
  (t.filter fun e => decide (lev e.1 seq ≤ n)).map fun e => (e.1, e.2, lev e.1 seq)

/-- `unique_everseen` (lines 106-118) specialised to its one use: keep the
first element for each key value. -/
def uniqueEverseenAux {α β : Type} [DecidableEq β] (key : α → β) :
    List α → List β → List α
  | [], _ => []
  | a :: as, seen =>
    if key a ∈ seen then uniqueEverseenAux key as seen
    else a :: uniqueEverseenAux key as (key a :: seen)

def unique_everseen {α β : Type} [DecidableEq β] (l : List α) (key : α → β) : List α :=
  uniqueEverseenAux key l []

/-- One merge step of `process_similar` (lines 132-140): skip distance-0 and
self matches; a `canon` match donates its count to the query and is zeroed;
a `sub` match routes the query's count to the window's parent and zeroes
the query. -/
def similarStep (seq : Sequence) (c : Counter) (m : Sequence × TrieVal × Nat) : Counter :=
  if m.2.2 = 0 ∨ m.1 = seq then c
  else
    match m.2.1 with
    | TrieVal.canon _ => cset (cset c seq (cget c seq + cget c m.1)) m.1 0
    | TrieVal.sub p => cset (cset c p (cget c p + cget c seq)) seq 0

/-- Processing of one query sequence by `process_similar` (lines 131-140):
skipped outright when its current count is 0. -/
def similarSeq (t : Trie) (n : Nat) (c : Counter) (seq : Sequence) : Counter :=
  if cget c seq = 0 then c
  else (unique_everseen (get_approximate t seq n) fun m => m.1).foldl (similarStep seq) c

/-- `process_similar` (lines 120-142): longest-first approximate clustering,
then `counter += Counter()` keeps positive counts only. -/
def process_similar (counter : Counter) (t : Trie) (n : Nat) : Counter :=
  cstrip ((sortLenDesc (keys counter)).foldl (similarSeq t n) counter)

/-- Destination bin of one match in `process_similar_matrix`: the matched
key itself for a `canon` entry, the window's parent for a `sub` entry. -/
def matrixDest (m : Sequence × TrieVal × Nat) : Sequence :=
  match m.2.1 with
  | TrieVal.canon _ => m.1
  | TrieVal.sub p => p

/-- One step of `process_similar_matrix` (lines 165-174): add the sample
sequence's current count to the destination bin, then zero the sample
sequence. -/
def matrixStep (seq : Sequence) (st : Counter × Counter) (m : Sequence × TrieVal × Nat) :
    Counter × Counter :=
  (cset st.1 (matrixDest m) (cget st.1 (matrixDest m) + cget st.2 seq), cset st.2 seq 0)

/-- Processing of one sample sequence by `process_similar_matrix`. -/
def matrixSeq (t : Trie) (n : Nat) (st : Counter × Counter) (seq : Sequence) :
    Counter × Counter :=
  (unique_everseen (get_approximate t seq n) fun m => m.1).foldl (matrixStep seq) st

/-- `process_similar_matrix` (lines 144-176): classify sample sequences
longest-first against the bins; the sample table is mutated in place, so the
model returns the final (bins, sample) pair. -/
def process_similar_matrix (bins seqs : Counter) (t : Trie) (n : Nat) :
    Counter × Counter :=
  (sortLenDesc (keys seqs)).foldl (matrixSeq t n) (bins, seqs)

/-- Invariant of every multi-resolution index entry: a `canon` entry is a
table sequence carrying its table count; a `sub` entry points at a strictly
longer table sequence containing the entry's key as a contiguous substring. -/
def TrieEntryOk (c : Counter) (e : Sequence × TrieVal) : Prop :=
  (e.2 = TrieVal.canon (cget c e.1) ∧ e.1 ∈ keys c) ∨
    (∃ p, e.2 = TrieVal.sub p ∧ p ∈ keys c ∧ e.1.length < p.length ∧ e.1 <:+: p)

/- Concrete tables used by witnesses and counterexamples. -/

def seqAAAA : Sequence := ['A', 'A', 'A', 'A']
def seqAAAAGG : Sequence := ['A', 'A', 'A', 'A', 'G', 'G']
def seqTTTT : Sequence := ['T', 'T', 'T', 'T']
def seqTTT : Sequence := ['T', 'T', 'T']
def seqAAAT : Sequence := ['A', 'A', 'A', 'T']
def seqAATT : Sequence := ['A', 'A', 'T', 'T']
def seqCCCC : Sequence := ['C', 'C', 'C', 'C']

/-- The spec's concrete scenario table: `{"AAAA": 3, "AAAAGG": 2, "TTTT": 5}`. -/
def specTable : Counter := [(seqAAAA, 3), (seqAAAAGG, 2), (seqTTTT, 5)]

/-- A table whose longest sequence approximately matches its own stored
3-window `AAA` at distance 1. -/
def destroyTable : Counter := [(seqAAAA, 2), (seqTTT, 1)]

/-- Two equal-length sequences one substitution apart. -/
def canonPair : Counter := [(seqAAAA, 2), (seqAAAT, 3)]

/-- Three equal-length sequences within two substitutions of the first. -/
def threeTable : Counter := [(seqAAAA, 1), (seqAAAT, 1), (seqAATT, 1)]

def binTable : Counter := [(seqCCCC, 0)]

def sampleTable : Counter := [(seqAAAA, 4)]

def seqAAA : Sequence := ['A', 'A', 'A']
def seqACGT : Sequence := ['A', 'C', 'G', 'T']
def seqTGCA : Sequence := ['T', 'G', 'C', 'A']
def seqACGA : Sequence := ['A', 'C', 'G', 'A']

/-- The spec's bin-classifier scenario: bins `{"ACGT": 0, "TGCA": 0}`. -/
def binsACGT : Counter := [(seqACGT, 0), (seqTGCA, 0)]

/-- The spec's bin-classifier scenario: sample `{"ACGA": 4}`. -/
def sampACGA : Counter := [(seqACGA, 4)]

/-- A table where `AAAA` is an exact substring of `AAAAGG`. -/
def exactPair : Counter := [(seqAAAA, 3), (seqAAAAGG, 2)]

/-! ## Basic lemmas about table access -/

theorem keys_cons (p : Sequence × Nat) (rest : Counter) :
    keys (p :: rest) = p.1 :: keys rest := rfl

theorem cget_cons (p : Sequence × Nat) (rest : Counter) (x : Sequence) :
    cget (p :: rest) x = if p.1 = x then p.2 else cget rest x := rfl

theorem cset_cons (p : Sequence × Nat) (rest : Counter) (x : Sequence) (v : Nat) :
    cset (p :: rest) x v = if p.1 = x then (p.1, v) :: rest else p :: cset rest x v := rfl

theorem cstrip_cons (p : Sequence × Nat) (rest : Counter) :
    cstrip (p :: rest) = if 0 < p.2 then p :: cstrip rest else cstrip rest := by
  by_cases h : 0 < p.2 <;> simp [cstrip, List.filter_cons, h]

theorem cget_cset_self (c : Counter) (k : Sequence) (v : Nat) :
    cget (cset c k v) k = v := by
  induction c with
  | nil => simp [cset, cget]
  | cons p rest ih =>
    by_cases h : p.1 = k
    · simp [cset_cons, cget_cons, h]
    · simp [cset_cons, cget_cons, h, ih]

theorem cget_cset_ne (c : Counter) {k x : Sequence} (v : Nat) (h : k ≠ x) :
    cget (cset c k v) x = cget c x := by
  induction c with
  | nil => simp [cset, cget, h]
  | cons p rest ih =>
    by_cases hp : p.1 = k
    · subst hp
      simp [cset_cons, cget_cons, h, ih]
    · simp [cset_cons, cget_cons, hp, ih]

theorem cget_eq_zero_of_not_mem {c : Counter} {x : Sequence} (h : x ∉ keys c) :
    cget c x = 0 := by
  induction c with
  | nil => rfl
  | cons p rest ih =>
    rw [keys_cons, List.mem_cons] at h
    push_neg at h
    rw [cget_cons, if_neg (fun he => h.1 he.symm), ih h.2]

theorem keys_cset_of_mem {c : Counter} {k : Sequence} (v : Nat) (h : k ∈ keys c) :
    keys (cset c k v) = keys c := by
  induction c with
  | nil => simp [keys] at h
  | cons p rest ih =>
    rw [keys_cons, List.mem_cons] at h
    by_cases hp : p.1 = k
    · simp [cset_cons, hp, keys_cons]
    · rcases h with h | h
      · exact absurd h.symm hp
      · simp [cset_cons, hp, keys_cons, ih h]

theorem mem_keys_cset (c : Counter) (k x : Sequence) (v : Nat) :
    x ∈ keys (cset c k v) ↔ x ∈ keys c ∨ x = k := by
  induction c with
  | nil => simp [cset, keys, eq_comm]
  | cons p rest ih =>
    by_cases hp : p.1 = k
    · subst hp
      simp [cset_cons, keys_cons]
      tauto
    · simp [cset_cons, hp, keys_cons, ih]
      tauto

theorem nodup_keys_cset {c : Counter} {k : Sequence} (v : Nat)
    (h : (keys c).Nodup) : (keys (cset c k v)).Nodup := by
  induction c with
  | nil => simp [cset, keys]
  | cons p rest ih =>
    rw [keys_cons, List.nodup_cons] at h
    by_cases hp : p.1 = k
    · simp [cset_cons, hp, keys_cons, List.nodup_cons]
      exact ⟨hp ▸ h.1, h.2⟩
    · simp only [cset_cons, if_neg hp, keys_cons, List.nodup_cons]
      refine ⟨fun hx => ?_, ih h.2⟩
      rw [mem_keys_cset] at hx
      rcases hx with hx | hx
      · exact h.1 hx
      · exact hp (hx ▸ rfl)

theorem cstrip_sublist (c : Counter) : List.Sublist (cstrip c) c := List.filter_sublist c

theorem keys_cstrip_sublist (c : Counter) : List.Sublist (keys (cstrip c)) (keys c) :=
  List.Sublist.map Prod.fst (cstrip_sublist c)

theorem mem_keys_cstrip {c : Counter} (h : (keys c).Nodup) (x : Sequence) :
    x ∈ keys (cstrip c) ↔ x ∈ keys c ∧ 0 < cget c x := by
  induction c with
  | nil => simp [cstrip, keys, cget]
  | cons p rest ih =>
    rw [keys_cons, List.nodup_cons] at h
    rw [cstrip_cons, keys_cons, cget_cons]
    by_cases hp : p.1 = x
    · subst hp
      by_cases hv : 0 < p.2
      · simp [hv, keys_cons]
      · simp only [if_neg hv, if_pos rfl, ih h.2]
        constructor
        · intro hx
          exact absurd hx.1 h.1
        · intro hx
          exact absurd hx.2 hv
    · by_cases hv : 0 < p.2
      · simp only [if_pos hv, keys_cons, List.mem_cons, ih h.2, if_neg hp]
        constructor
        · rintro (he | hx)
          · exact absurd he.symm hp
          · exact ⟨Or.inr hx.1, hx.2⟩
        · rintro ⟨he | hx, hc⟩
          · exact absurd he.symm hp
          · exact Or.inr ⟨hx, hc⟩
      · simp only [if_neg hv, ih h.2, List.mem_cons, if_neg hp]
        constructor
        · intro hx
          exact ⟨Or.inr hx.1, hx.2⟩
        · rintro ⟨he | hx, hc⟩
          · exact absurd he.symm hp
          · exact ⟨hx, hc⟩

theorem cget_cstrip {c : Counter} (h : (keys c).Nodup) (x : Sequence) :
    cget (cstrip c) x = cget c x ∨ cget (cstrip c) x = 0 := by
  induction c with
  | nil => simp [cstrip, cget]
  | cons p rest ih =>
    rw [keys_cons, List.nodup_cons] at h
    rw [cstrip_cons, cget_cons]
    by_cases hp : p.1 = x
    · subst hp
      by_cases hv : 0 < p.2
      · simp [hv, cget_cons]
      · right
        rw [if_neg hv]
        apply cget_eq_zero_of_not_mem
        intro hmem
        exact h.1 ((keys_cstrip_sublist rest).mem hmem)
    · by_cases hv : 0 < p.2
      · simpa [hv, cget_cons, hp] using ih h.2
      · simpa [hv, cget_cons, hp] using ih h.2

theorem cstrip_idem (c : Counter) : cstrip (cstrip c) = cstrip c := by
  induction c with
  | nil => rfl
  | cons p rest ih =>
    by_cases hv : 0 < p.2
    · rw [cstrip_cons, if_pos hv, cstrip_cons, if_pos hv, ih]
    · rw [cstrip_cons, if_neg hv, ih]

/-! ## Basic lemmas about the trie model -/

theorem tgetEntry_cons (p : Sequence × TrieVal) (rest : Trie) (x : Sequence) :
    tgetEntry (p :: rest) x = if p.1 = x then some p.2 else tgetEntry rest x := rfl

theorem thas_iff_mem_fst (t : Trie) (k : Sequence) :
    thas t k = true ↔ k ∈ t.map Prod.fst := by
  induction t with
  | nil => simp [thas, tgetEntry]
  | cons p rest ih =>
    rw [List.map_cons, List.mem_cons]
    unfold thas at ih ⊢
    rw [tgetEntry_cons]
    by_cases hp : p.1 = k
    · rw [if_pos hp]
      constructor
      · intro
        exact Or.inl hp.symm
      · intro
        rfl
    · rw [if_neg hp, ih]
      constructor
      · exact Or.inr
      · rintro (h | h)
        · exact absurd h.symm hp
        · exact h

theorem tput_of_not_has {t : Trie} {k : Sequence} (v : TrieVal)
    (h : thas t k = false) : tput t k v = t ++ [(k, v)] := by
  induction t with
  | nil => rfl
  | cons p rest ih =>
    by_cases hp : p.1 = k
    · simp [thas, tgetEntry_cons, hp] at h
    · simp [thas] at h ih
      simp [tput, hp, ih (by simpa [tgetEntry_cons, hp] using h)]

theorem tgetEntry_append_of_some {t₁ : Trie} {k : Sequence} {v : TrieVal}
    (t₂ : Trie) (h : tgetEntry t₁ k = some v) :
    tgetEntry (t₁ ++ t₂) k = some v := by
  induction t₁ with
  | nil => simp [tgetEntry] at h
  | cons p rest ih =>
    rw [tgetEntry_cons] at h
    by_cases hp : p.1 = k
    · simpa [tgetEntry_cons, hp] using h
    · rw [if_neg hp] at h
      simpa [tgetEntry_cons, hp] using ih h

theorem tgetEntry_append_of_none {t₁ : Trie} {k : Sequence}
    (t₂ : Trie) (h : tgetEntry t₁ k = none) :
    tgetEntry (t₁ ++ t₂) k = tgetEntry t₂ k := by
  induction t₁ with
  | nil => simp
  | cons p rest ih =>
    rw [tgetEntry_cons] at h
    by_cases hp : p.1 = k
    · simp [hp] at h
    · rw [if_neg hp] at h
      simpa [tgetEntry_cons, hp] using ih h

theorem mem_of_tgetEntry {t : Trie} {k : Sequence} {v : TrieVal}
    (h : tgetEntry t k = some v) : (k, v) ∈ t := by
  induction t with
  | nil => simp [tgetEntry] at h
  | cons p rest ih =>
    rw [tgetEntry_cons] at h
    by_cases hp : p.1 = k
    · rw [if_pos hp] at h
      have hv : p.2 = v := by injection h
      have hpk : p = (k, v) := by
        cases p
        simp only [Prod.mk.injEq]
        exact ⟨hp, hv⟩
      rw [← hpk]
      exact List.mem_cons_self _ _
    · rw [if_neg hp] at h
      exact List.mem_cons_of_mem _ (ih h)

theorem trieWindowStep_stable {cnt : Counter} {seq : Sequence} {t : Trie}
    {x : Sequence} {v : TrieVal} (w : Sequence) (h : tgetEntry t x = some v) :
    tgetEntry (trieWindowStep cnt seq t w) x = some v := by
  unfold trieWindowStep
  by_cases hw : thas t w = true
  · simp [hw, h]
  · have hw' : thas t w = false := by simpa using hw
    have hnone : tgetEntry t w = none := by
      unfold thas at hw'
      exact Option.eq_none_of_isNone (by simpa using hw')
    by_cases hws : w = seq
    · subst hws
      rw [if_neg (by simp [hw']), if_pos rfl, tput_of_not_has _ hw']
      exact tgetEntry_append_of_some _ h
    · rw [if_neg (by simp [hw']), if_neg hws, tput_of_not_has _ hw']
      exact tgetEntry_append_of_some _ h

theorem trieWindowStep_has_self (cnt : Counter) (seq : Sequence) (t : Trie)
    (w : Sequence) : thas (trieWindowStep cnt seq t w) w = true := by
  unfold trieWindowStep
  by_cases hw : thas t w = true
  · simp [hw]
  · have hw' : thas t w = false := by simpa using hw
    have hnone : tgetEntry t w = none := by
      unfold thas at hw'
      exact Option.eq_none_of_isNone (by simpa using hw')
    by_cases hws : w = seq
    · subst hws
      rw [if_neg (by simp [hw']), if_pos rfl, tput_of_not_has _ hw']
      unfold thas
      rw [tgetEntry_append_of_none _ hnone]
      simp [tgetEntry]
    · rw [if_neg (by simp [hw']), if_neg hws, tput_of_not_has _ hw']
      unfold thas
      rw [tgetEntry_append_of_none _ hnone]
      simp [tgetEntry]

theorem foldWindows_stable {cnt : Counter} {seq : Sequence} {x : Sequence}
    {v : TrieVal} (L : List Sequence) :
    ∀ t : Trie, tgetEntry t x = some v →
      tgetEntry (L.foldl (trieWindowStep cnt seq) t) x = some v := by
  induction L with
  | nil => intro t h; exact h
  | cons w L ih =>
    intro t h
    exact ih _ (trieWindowStep_stable w h)

theorem thas_of_tgetEntry {t : Trie} {k : Sequence} {v : TrieVal}
    (h : tgetEntry t k = some v) : thas t k = true := by
  unfold thas
  rw [h]
  rfl

theorem thas_true_exists {t : Trie} {k : Sequence} (h : thas t k = true) :
    ∃ v, tgetEntry t k = some v := by
  unfold thas at h
  exact Option.isSome_iff_exists.mp h

theorem foldWindows_has {cnt : Counter} {seq : Sequence} {w : Sequence}
    (L : List Sequence) (hw : w ∈ L) :
    ∀ t : Trie, thas (L.foldl (trieWindowStep cnt seq) t) w = true := by
  induction L with
  | nil => simp at hw
  | cons w' L ih =>
    intro t
    rcases List.mem_cons.mp hw with h | h
    · subst h
      rcases thas_true_exists (trieWindowStep_has_self cnt seq t w) with ⟨v, hv⟩
      exact thas_of_tgetEntry (foldWindows_stable L _ hv)
    · exact ih h _

theorem trieLenStep_stable {cnt : Counter} {seq : Sequence} {x : Sequence}
    {v : TrieVal} (l : Nat) {t : Trie} (h : tgetEntry t x = some v) :
    tgetEntry (trieLenStep cnt seq t l) x = some v := by
  unfold trieLenStep
  by_cases hl : seq.length < l
  · simp [hl, h]
  · rw [if_neg hl]
    exact foldWindows_stable _ _ h

theorem trieSeqStep_stable {cnt : Counter} {x : Sequence} {v : TrieVal}
    (ls : List Nat) (seq : Sequence) :
    ∀ {t : Trie}, tgetEntry t x = some v →
      tgetEntry (trieSeqStep cnt ls t seq) x = some v := by
  induction ls with
  | nil => intro t h; exact h
  | cons l ls ih =>
    intro t h
    exact ih (trieLenStep_stable l h)

theorem trieFold_stable {cnt : Counter} {ls : List Nat} {x : Sequence}
    {v : TrieVal} (ss : List Sequence) :
    ∀ {t : Trie}, tgetEntry t x = some v →
      tgetEntry (ss.foldl (trieSeqStep cnt ls) t) x = some v := by
  induction ss with
  | nil => intro t h; exact h
  | cons s ss ih =>
    intro t h
    exact ih (trieSeqStep_stable ls s h)

theorem trieLenStep_has {cnt : Counter} {seq : Sequence} {w : Sequence}
    {l : Nat} (hl : ¬ seq.length < l) (hw : w ∈ chunker seq l) (t : Trie) :
    thas (trieLenStep cnt seq t l) w = true := by
  unfold trieLenStep
  rw [if_neg hl]
  exact foldWindows_has _ hw t

theorem trieSeqStep_has {cnt : Counter} {seq : Sequence} {w : Sequence}
    {l : Nat} (ls : List Nat) (hmem : l ∈ ls) (hl : ¬ seq.length < l)
    (hw : w ∈ chunker seq l) :
    ∀ t : Trie, thas (trieSeqStep cnt ls t seq) w = true := by
  induction ls with
  | nil => simp at hmem
  | cons l' ls ih =>
    intro t
    rcases List.mem_cons.mp hmem with h | h
    · subst h
      rcases thas_true_exists (trieLenStep_has hl hw t) with ⟨v, hv⟩
      exact thas_of_tgetEntry (trieSeqStep_stable ls seq hv)
    · exact ih h _

/-! ## Window enumeration, sorting and deduplication lemmas -/

theorem mem_chunker {s x : Sequence} {n : Nat} (h : x ∈ chunker s n) :
    x <:+: s ∧ x.length = n := by
  unfold chunker at h
  rcases List.mem_map.mp h with ⟨i, hi, hx⟩
  rw [List.mem_range] at hi
  have hle : i + n ≤ s.length := by omega
  constructor
  · rw [← hx]
    have h1 := List.take_prefix n (s.drop i)
    exact h1.isInfix.trans (s.drop_suffix i).isInfix
  · rw [← hx, List.length_take, List.length_drop]
    omega

theorem infix_mem_chunker {s x : Sequence} (h : x <:+: s) :
    x ∈ chunker s x.length := by
  rcases h with ⟨u, v, huv⟩
  unfold chunker
  rw [List.mem_map]
  refine ⟨u.length, ?_, ?_⟩
  · rw [List.mem_range]
    have : s.length = u.length + x.length + v.length := by
      rw [← huv]
      simp [List.length_append]
      omega
    omega
  · have hdrop : s.drop u.length = x ++ v := by
      rw [← huv, List.append_assoc, List.drop_left]
    rw [hdrop, List.take_left]

theorem chunker_self (s : Sequence) : chunker s s.length = [s] := by
  unfold chunker
  have : s.length + 1 - s.length = 1 := by omega
  rw [this]
  have hr : List.range 1 = [0] := rfl
  rw [hr, List.map_singleton, List.drop_zero, List.take_length]

theorem insLenDesc_perm (a : Sequence) (l : List Sequence) :
    List.Perm (insLenDesc a l) (a :: l) := by
  induction l with
  | nil => rfl
  | cons b bs ih =>
    unfold insLenDesc
    by_cases h : b.length ≤ a.length
    · rw [if_pos h]
    · rw [if_neg h]
      exact (List.Perm.cons b ih).trans (List.Perm.swap a b bs)

theorem sortLenDesc_perm (l : List Sequence) : List.Perm (sortLenDesc l) l := by
  induction l with
  | nil => rfl
  | cons x xs ih =>
    unfold sortLenDesc at ih ⊢
    rw [List.foldr_cons]
    exact (insLenDesc_perm x _).trans (List.Perm.cons x ih)

theorem mem_sortLenDesc (l : List Sequence) (x : Sequence) :
    x ∈ sortLenDesc l ↔ x ∈ l := (sortLenDesc_perm l).mem_iff

theorem insLenDesc_pairwise {a : Sequence} {l : List Sequence}
    (h : l.Pairwise (fun x y => y.length ≤ x.length)) :
    (insLenDesc a l).Pairwise (fun x y => y.length ≤ x.length) := by
  induction l with
  | nil => simp [insLenDesc]
  | cons b bs ih =>
    rw [List.pairwise_cons] at h
    unfold insLenDesc
    by_cases hb : b.length ≤ a.length
    · rw [if_pos hb, List.pairwise_cons]
      refine ⟨?_, List.pairwise_cons.mpr h⟩
      intro y hy
      rcases List.mem_cons.mp hy with hy | hy
      · subst hy
        exact hb
      · exact le_trans (h.1 y hy) hb
    · rw [if_neg hb, List.pairwise_cons]
      refine ⟨?_, ih h.2⟩
      intro y hy
      have : y ∈ a :: bs := (insLenDesc_perm a bs).mem_iff.mp hy
      rcases List.mem_cons.mp this with hy' | hy'
      · subst hy'
        omega
      · exact h.1 y hy'

theorem sortLenDesc_pairwise (l : List Sequence) :
    (sortLenDesc l).Pairwise (fun x y => y.length ≤ x.length) := by
  induction l with
  | nil => simp [sortLenDesc]
  | cons x xs ih =>
    unfold sortLenDesc at ih ⊢
    rw [List.foldr_cons]
    exact insLenDesc_pairwise ih

theorem nodup_sortLenDesc {l : List Sequence} (h : l.Nodup) :
    (sortLenDesc l).Nodup := ((sortLenDesc_perm l).nodup_iff).mpr h

theorem mem_insNatSorted (n x : Nat) (l : List Nat) :
    x ∈ insNatSorted n l ↔ x = n ∨ x ∈ l := by
  induction l with
  | nil => simp [insNatSorted]
  | cons m ms ih =>
    unfold insNatSorted
    by_cases h1 : n < m
    · rw [if_pos h1]
      simp
    · rw [if_neg h1]
      by_cases h2 : n = m
      · subst h2
        simp
      · rw [if_neg h2]
        simp [ih]
        tauto

theorem mem_sortedSet (l : List Nat) (x : Nat) : x ∈ sortedSet l ↔ x ∈ l := by
  induction l with
  | nil => simp [sortedSet]
  | cons m ms ih =>
    unfold sortedSet at ih ⊢
    rw [List.foldr_cons, mem_insNatSorted, ih]
    simp

theorem mem_uniqueEverseenAux {α β : Type} [DecidableEq β] (key : α → β)
    (l : List α) (seen : List β) (x : α) (h : x ∈ uniqueEverseenAux key l seen) :
    x ∈ l := by
  induction l generalizing seen with
  | nil => simp [uniqueEverseenAux] at h
  | cons a as ih =>
    unfold uniqueEverseenAux at h
    by_cases hs : key a ∈ seen
    · rw [if_pos hs] at h
      exact List.mem_cons_of_mem _ (ih _ h)
    · rw [if_neg hs] at h
      rcases List.mem_cons.mp h with h | h
      · exact h ▸ List.mem_cons_self _ _
      · exact List.mem_cons_of_mem _ (ih _ h)

theorem mem_unique_everseen {α β : Type} [DecidableEq β] {key : α → β}
    {l : List α} {x : α} (h : x ∈ unique_everseen l key) : x ∈ l :=
  mem_uniqueEverseenAux key l [] x h

theorem mem_get_approximate {t : Trie} {seq : Sequence} {n : Nat}
    {m : Sequence × TrieVal × Nat} (h : m ∈ get_approximate t seq n) :
    (m.1, m.2.1) ∈ t ∧ m.2.2 = lev m.1 seq ∧ lev m.1 seq ≤ n := by
  unfold get_approximate at h
  rcases List.mem_map.mp h with ⟨e, he, hm⟩
  have hmem := List.mem_of_mem_filter he
  have hcond := List.of_mem_filter he
  rw [decide_eq_true_eq] at hcond
  subst hm
  exact ⟨by simpa using hmem, rfl, hcond⟩

/-! ## Pointwise behaviour of the approximate-clusterer merge step -/

theorem matrixFold_zero (seq : Sequence) (L : List (Sequence × TrieVal × Nat)) :
    ∀ st : Counter × Counter, cget st.2 seq = 0 →
      (∀ b, cget (L.foldl (matrixStep seq) st).1 b = cget st.1 b) ∧
      (∀ x, cget (L.foldl (matrixStep seq) st).2 x = cget st.2 x) := by
  induction L with
  | nil => exact fun st _ => ⟨fun b => rfl, fun x => rfl⟩
  | cons m L ih =>
    intro st h
    have h1 : ∀ b, cget (matrixStep seq st m).1 b = cget st.1 b := by
      intro b
      unfold matrixStep
      by_cases hb : matrixDest m = b
      · subst hb
        rw [cget_cset_self, h, Nat.add_zero]
      · rw [cget_cset_ne _ _ hb]
    have h2 : ∀ x, cget (matrixStep seq st m).2 x = cget st.2 x := by
      intro x
      unfold matrixStep
      by_cases hx : seq = x
      · subst hx
        rw [cget_cset_self, h]
      · rw [cget_cset_ne _ _ hx]
    have hz : cget (matrixStep seq st m).2 seq = 0 := by rw [h2 seq, h]
    rcases ih (matrixStep seq st m) hz with ⟨ih1, ih2⟩
    exact ⟨fun b => (ih1 b).trans (h1 b), fun x => (ih2 x).trans (h2 x)⟩

/-! ## Claim theorems: approximate clusterer merge behaviour -/

/-- C9: in the Approximate Clusterer, a returned match with distance 0 or
with matched key equal to the query sequence itself is skipped outright and
changes no count in the table. -/
theorem C9_self_match_exclusion (seq : Sequence) (c : Counter)
    (m : Sequence × TrieVal × Nat) (h : m.2.2 = 0 ∨ m.1 = seq) :
    similarStep seq c m = c := by
  unfold similarStep
  rw [if_pos h]

theorem C9_self_match_exclusion_witness :
    similarStep seqAAAA canonPair (seqAAAT, TrieVal.canon 3, 0) = canonPair :=
  C9_self_match_exclusion seqAAAA canonPair (seqAAAT, TrieVal.canon 3, 0) (Or.inl rfl)

/-- C2 counterexample: on table `{"AAAA": 2, "AAAT": 3}` with one mismatch,
the retained canonical match `AAAT` of query `AAAA` leaves the query with
count 5 and the matched sequence with count 0 — the matched sequence merges
into the query, not the query into the matched sequence as the claim
states; the full run returns `{"AAAA": 5}`. -/
theorem C2_counterexample :
    cget (similarStep seqAAAA canonPair (seqAAAT, TrieVal.canon 3, 1)) seqAAAA = 5 ∧
    cget (similarStep seqAAAA canonPair (seqAAAT, TrieVal.canon 3, 1)) seqAAAT = 0 ∧
    process_similar canonPair (construct_complex_trie canonPair none) 1
      = [(seqAAAA, 5)] := by decide

/-- C2 (amended): for every retained non-trivial match whose trie entry is
`canon`, the operation adds the matched sequence's count into the query
sequence's count and zeroes the matched sequence's count — the matched
sequence merges into the query. -/
theorem C2_canonical_merge_direction (seq : Sequence) (c : Counter)
    (k : Sequence) (w d : Nat) (hd : d ≠ 0) (hk : k ≠ seq) :
    similarStep seq c (k, TrieVal.canon w, d)
      = cset (cset c seq (cget c seq + cget c k)) k 0 ∧
    cget (similarStep seq c (k, TrieVal.canon w, d)) k = 0 ∧
    cget (similarStep seq c (k, TrieVal.canon w, d)) seq = cget c seq + cget c k := by
  have hstep : similarStep seq c (k, TrieVal.canon w, d)
      = cset (cset c seq (cget c seq + cget c k)) k 0 := by
    unfold similarStep
    rw [if_neg (by simp [hd, hk])]
  refine ⟨hstep, ?_, ?_⟩
  · rw [hstep, cget_cset_self]
  · rw [hstep, cget_cset_ne _ _ hk, cget_cset_self]

theorem C2_canonical_merge_direction_witness :
    cget (similarStep seqAAAA canonPair (seqAAAT, TrieVal.canon 3, 1)) seqAAAT = 0 ∧
    cget (similarStep seqAAAA canonPair (seqAAAT, TrieVal.canon 3, 1)) seqAAAA
      = cget canonPair seqAAAA + cget canonPair seqAAAT :=
  ⟨(C2_canonical_merge_direction seqAAAA canonPair seqAAAT 3 1
      (by decide) (by decide)).2.1,
   (C2_canonical_merge_direction seqAAAA canonPair seqAAAT 3 1
      (by decide) (by decide)).2.2⟩

/-- C3 counterexample: on table `{"AAAA": 1, "AAAT": 1, "AATT": 1}` with two
mismatches, after query `AAAA`'s first accepted match (`AAAT`, canonical)
the query's own count is 2, not 0, and processing the subsequent match
`AATT` of the same deduplicated result list changes `AATT`'s count from 1
to 0 — a subsequent match moves real mass. -/
theorem C3_counterexample :
    cget (((unique_everseen
        (get_approximate (construct_complex_trie threeTable none) seqAAAA 2)
        fun m => m.1).take 2).foldl (similarStep seqAAAA) threeTable) seqAAAA = 2 ∧
    cget ((unique_everseen
        (get_approximate (construct_complex_trie threeTable none) seqAAAA 2)
        fun m => m.1).foldl (similarStep seqAAAA) threeTable) seqAATT
      ≠ cget (((unique_everseen
        (get_approximate (construct_complex_trie threeTable none) seqAAAA 2)
        fun m => m.1).take 2).foldl (similarStep seqAAAA) threeTable) seqAATT := by
  decide

/-- C3 (amended): the query's count is zeroed only by an accepted
`sub`-routed match; after such a match the query's count is 0, and once the
query's count is 0 any further accepted `sub`-routed match leaves every
count in the table unchanged.  Accepted `canon` matches do not zero the
query (they zero the matched key, per the amended C2), so matches after a
canonical match can still move mass. -/
theorem C3_sub_zeroes_query (seq : Sequence) (c : Counter) (k p : Sequence)
    (d : Nat) (hd : d ≠ 0) (hk : k ≠ seq) :
    cget (similarStep seq c (k, TrieVal.sub p, d)) seq = 0 ∧
    (cget c seq = 0 →
      ∀ x, cget (similarStep seq c (k, TrieVal.sub p, d)) x = cget c x) := by
  have hstep : similarStep seq c (k, TrieVal.sub p, d)
      = cset (cset c p (cget c p + cget c seq)) seq 0 := by
    unfold similarStep
    rw [if_neg (by simp [hd, hk])]
  constructor
  · rw [hstep, cget_cset_self]
  · intro h0 x
    rw [hstep, h0, Nat.add_zero]
    by_cases hx : x = seq
    · subst hx
      rw [cget_cset_self, h0]
    · rw [cget_cset_ne _ _ (Ne.symm hx)]
      by_cases hp : p = x
      · subst hp
        rw [cget_cset_self]
      · rw [cget_cset_ne _ _ hp]

theorem C3_sub_zeroes_query_witness :
    cget (similarStep seqAAAA destroyTable (seqAAA, TrieVal.sub seqAAAA, 1)) seqAAAA = 0 :=
  (C3_sub_zeroes_query seqAAAA destroyTable seqAAA seqAAAA 1
      (by decide) (by decide)).1

/-- C1: count conservation fails in the code.  On table
`{"AAAA": 2, "TTT": 1}` with one mismatch, the multi-resolution trie stores
the window `AAA` as a subsequence of `AAAA`; the query `AAAA` then matches
its own window at distance 1 and the `sub` branch doubles and immediately
zeroes `AAAA`'s own count, destroying its mass: the total drops from 3 to 1. -/
theorem C1_similar_mass_not_conserved :
    total destroyTable = 3 ∧
    total (process_similar destroyTable
        (construct_complex_trie destroyTable none) 1) = 1 := by decide

/-- C8 counterexample: a sample sequence with no approximate match within
the mismatch budget keeps its count: with bins `{"CCCC": 0}`, sample
`{"AAAA": 4}` and zero mismatches, after classification the sample count of
`AAAA` is still 4, not 0, and no bin received its mass. -/
theorem C8_counterexample :
    cget (process_similar_matrix binTable sampleTable
        (construct_complex_trie binTable none) 0).2 seqAAAA = 4 ∧
    cget (process_similar_matrix binTable sampleTable
        (construct_complex_trie binTable none) 0).1 seqCCCC = 0 := by decide

/-- C8 (amended): for a sample sequence whose deduplicated match list is
empty, bins and sample table are unchanged; otherwise after processing the
sequence its sample count is 0, the destination bin of the FIRST match
gained exactly the sequence's previous count, every other bin count is
unchanged and every other sample count is unchanged. -/
theorem C8_single_destination (t : Trie) (n : Nat) (bins seqs : Counter)
    (seq : Sequence) :
    (unique_everseen (get_approximate t seq n) (fun m => m.1) = [] →
      matrixSeq t n (bins, seqs) seq = (bins, seqs)) ∧
    ∀ m rest,
      unique_everseen (get_approximate t seq n) (fun m => m.1) = m :: rest →
      cget (matrixSeq t n (bins, seqs) seq).2 seq = 0 ∧
      cget (matrixSeq t n (bins, seqs) seq).1 (matrixDest m)
        = cget bins (matrixDest m) + cget seqs seq ∧
      (∀ b, b ≠ matrixDest m →
        cget (matrixSeq t n (bins, seqs) seq).1 b = cget bins b) ∧
      (∀ x, x ≠ seq →
        cget (matrixSeq t n (bins, seqs) seq).2 x = cget seqs x) := by
  constructor
  · intro hnil
    unfold matrixSeq
    rw [hnil]
    rfl
  · intro m rest hcons
    unfold matrixSeq
    rw [hcons, List.foldl_cons]
    have hz : cget (matrixStep seq (bins, seqs) m).2 seq = 0 := by
      unfold matrixStep
      exact cget_cset_self _ _ _
    rcases matrixFold_zero seq rest (matrixStep seq (bins, seqs) m) hz with ⟨h1, h2⟩
    refine ⟨?_, ?_, ?_, ?_⟩
    · rw [h2 seq, hz]
    · rw [h1 (matrixDest m)]
      unfold matrixStep
      exact cget_cset_self _ _ _
    · intro b hb
      rw [h1 b]
      unfold matrixStep
      exact cget_cset_ne _ _ (Ne.symm hb)
    · intro x hx
      rw [h2 x]
      unfold matrixStep
      exact cget_cset_ne _ _ (Ne.symm hx)

theorem C8_single_destination_witness :
    cget (matrixSeq (construct_complex_trie binsACGT none) 1
        (binsACGT, sampACGA) seqACGA).2 seqACGA = 0 ∧
    cget (matrixSeq (construct_complex_trie binsACGT none) 1
        (binsACGT, sampACGA) seqACGA).1
        (matrixDest (seqACGT, TrieVal.canon 0, 1))
      = cget binsACGT (matrixDest (seqACGT, TrieVal.canon 0, 1))
        + cget sampACGA seqACGA := by
  have h := (C8_single_destination (construct_complex_trie binsACGT none) 1
      binsACGT sampACGA seqACGA).2 (seqACGT, TrieVal.canon 0, 1) [] (by decide)
  exact ⟨h.1, h.2.1⟩

/-! ## Claim C6: exact substring collapser behaviour -/

/-- C6: the Exact Substring Collapser processes sequences longest-first (a
length-descending permutation of the table's keys); the matches of a
sequence are exactly the trie-indexed keys occurring as exact contiguous
substrings of it; a match of the sequence's own full length changes
nothing, and every strictly shorter match donates its current count to the
containing sequence and is itself zeroed. -/
theorem C6_exact_collapse_behaviour (c0 : Counter) (t : Trie) (seq : Sequence)
    (c : Counter) (m : Sequence) :
    (List.Perm (sortLenDesc (keys c0)) (keys c0) ∧
      (sortLenDesc (keys c0)).Pairwise (fun a b => b.length ≤ a.length)) ∧
    (m ∈ triefind_find seq t ↔ m ∈ t.map Prod.fst ∧ m <:+: seq) ∧
    (m.length = seq.length → exactStep seq c m = c) ∧
    (m.length < seq.length →
      cget (exactStep seq c m) seq = cget c seq + cget c m ∧
      cget (exactStep seq c m) m = 0) := by
  refine ⟨⟨sortLenDesc_perm _, sortLenDesc_pairwise _⟩, ?_, ?_, ?_⟩
  · unfold triefind_find
    rw [List.mem_filter, decide_eq_true_eq]
  · intro h
    unfold exactStep
    rw [if_pos h]
  · intro h
    have hne : m ≠ seq := by
      intro he
      rw [he] at h
      omega
    have hstep : exactStep seq c m = cset (cset c seq (cget c seq + cget c m)) m 0 := by
      unfold exactStep
      rw [if_neg (by omega)]
    constructor
    · rw [hstep, cget_cset_ne _ _ hne, cget_cset_self]
    · rw [hstep, cget_cset_self]

theorem C6_exact_collapse_behaviour_witness :
    (cget (exactStep seqAAAAGG specTable seqAAAA) seqAAAAGG
        = cget specTable seqAAAAGG + cget specTable seqAAAA ∧
      cget (exactStep seqAAAAGG specTable seqAAAA) seqAAAA = 0) ∧
    exactStep seqAAAA specTable seqAAAA = specTable :=
  ⟨(C6_exact_collapse_behaviour specTable (construct_simple_trie specTable)
        seqAAAAGG specTable seqAAAA).2.2.2 (by decide),
   (C6_exact_collapse_behaviour specTable (construct_simple_trie specTable)
        seqAAAA specTable seqAAAA).2.2.1 rfl⟩

/-! ## The multi-resolution trie entry invariant -/

theorem foldWindows_entryOk {c : Counter} {seq : Sequence} (hseq : seq ∈ keys c)
    (L : List Sequence) (hL : ∀ w ∈ L, w <:+: seq) :
    ∀ {t : Trie}, (∀ e ∈ t, TrieEntryOk c e) →
      ∀ e ∈ L.foldl (trieWindowStep c seq) t, TrieEntryOk c e := by
  induction L with
  | nil => exact fun hT e he => hT e he
  | cons w L ih =>
    intro t hT e he
    rw [List.foldl_cons] at he
    refine ih (fun w' hw' => hL w' (List.mem_cons_of_mem _ hw')) ?_ e he
    intro e' he'
    unfold trieWindowStep at he'
    by_cases hw : thas t w = true
    · rw [if_pos hw] at he'
      exact hT e' he'
    · have hw' : thas t w = false := by simpa using hw
      rw [if_neg (by simp [hw'])] at he'
      by_cases hws : w = seq
      · rw [if_pos hws] at he'
        rw [tput_of_not_has _ (hws ▸ hw')] at he'
        rcases List.mem_append.mp he' with h | h
        · exact hT e' h
        · have : e' = (seq, TrieVal.canon (cget c seq)) := by simpa using h
          subst this
          exact Or.inl ⟨rfl, hseq⟩
      · rw [if_neg hws] at he'
        rw [tput_of_not_has _ hw'] at he'
        rcases List.mem_append.mp he' with h | h
        · exact hT e' h
        · have : e' = (w, TrieVal.sub seq) := by simpa using h
          subst this
          have hinf : w <:+: seq := hL w (List.mem_cons_self _ _)
          have hlenlt : w.length < seq.length := by
            rcases Nat.lt_or_ge w.length seq.length with h' | h'
            · exact h'
            · exact absurd (hinf.eq_of_length_le h') hws
          exact Or.inr ⟨seq, rfl, hseq, hlenlt, hinf⟩

theorem trieLenStep_entryOk {c : Counter} {seq : Sequence} (hseq : seq ∈ keys c)
    (l : Nat) {t : Trie} (hT : ∀ e ∈ t, TrieEntryOk c e) :
    ∀ e ∈ trieLenStep c seq t l, TrieEntryOk c e := by
  unfold trieLenStep
  by_cases hl : seq.length < l
  · rw [if_pos hl]
    exact hT
  · rw [if_neg hl]
    exact foldWindows_entryOk hseq _ (fun w hw => (mem_chunker hw).1) hT

theorem trieSeqStep_entryOk {c : Counter} {seq : Sequence} (hseq : seq ∈ keys c)
    (ls : List Nat) :
    ∀ {t : Trie}, (∀ e ∈ t, TrieEntryOk c e) →
      ∀ e ∈ trieSeqStep c ls t seq, TrieEntryOk c e := by
  induction ls with
  | nil => exact fun hT => hT
  | cons l ls ih =>
    intro t hT
    exact ih (trieLenStep_entryOk hseq l hT)

theorem trieFold_entryOk {c : Counter} (ss : List Sequence)
    (hs : ∀ s ∈ ss, s ∈ keys c) (ls : List Nat) :
    ∀ {t : Trie}, (∀ e ∈ t, TrieEntryOk c e) →
      ∀ e ∈ ss.foldl (trieSeqStep c ls) t, TrieEntryOk c e := by
  induction ss with
  | nil => exact fun hT => hT
  | cons s ss ih =>
    intro t hT
    exact ih (fun s' hs' => hs s' (List.mem_cons_of_mem _ hs'))
      (trieSeqStep_entryOk (hs s (List.mem_cons_self _ _)) ls hT)

theorem complex_trie_entryOk (c : Counter) (lengths : Option (List Nat)) :
    ∀ e ∈ construct_complex_trie c lengths, TrieEntryOk c e := by
  unfold construct_complex_trie
  cases lengths with
  | none =>
    exact trieFold_entryOk _ (fun s hs => (mem_sortLenDesc _ s).mp hs) _
      (fun e he => by simp at he)
  | some ls =>
    exact trieFold_entryOk _ (fun s hs => (mem_sortLenDesc _ s).mp hs) _
      (fun e he => by simp at he)

/-- C10: every entry of the multi-resolution trie built with default
lengths satisfies the sum-type invariant `TrieEntryOk`: its value is either
the input table's count for the entry's key (which is then a table
sequence), or a strictly longer table sequence containing the entry's key
as a contiguous substring. -/
theorem C10_trie_entry_invariant (c : Counter) (e : Sequence × TrieVal)
    (he : e ∈ construct_complex_trie c none) : TrieEntryOk c e :=
  complex_trie_entryOk c none e he

theorem C10_trie_entry_invariant_witness :
    TrieEntryOk specTable (seqAAAA, TrieVal.sub seqAAAAGG) :=
  C10_trie_entry_invariant specTable (seqAAAA, TrieVal.sub seqAAAAGG) (by decide)

/-! ## Key-domain preservation and the effect of the final strip -/

theorem simple_trie_fold_fst (c : Counter) :
    ∀ t₀ : Trie, (∀ x ∈ keys c, x ∉ t₀.map Prod.fst) → (keys c).Nodup →
      (c.foldl (fun t p => tput t p.1 (TrieVal.canon p.2)) t₀).map Prod.fst
        = t₀.map Prod.fst ++ keys c := by
  induction c with
  | nil => intro t₀ _ _; simp [keys]
  | cons p rest ih =>
    intro t₀ hdis hN
    rw [keys_cons, List.nodup_cons] at hN
    have hp0 : p.1 ∉ t₀.map Prod.fst :=
      hdis p.1 (by rw [keys_cons]; exact List.mem_cons_self _ _)
    have hfalse : thas t₀ p.1 = false := by
      rw [← Bool.not_eq_true, thas_iff_mem_fst]
      exact hp0
    rw [List.foldl_cons, tput_of_not_has _ hfalse]
    have hstep : ((t₀ ++ [(p.1, TrieVal.canon p.2)]).map Prod.fst)
        = t₀.map Prod.fst ++ [p.1] := by
      rw [List.map_append]
      rfl
    rw [ih (t₀ ++ [(p.1, TrieVal.canon p.2)]) ?_ hN.2, hstep, List.append_assoc]
    · rw [keys_cons]
      rfl
    · intro x hx
      rw [hstep, List.mem_append]
      rintro (h | h)
      · exact hdis x (by rw [keys_cons]; exact List.mem_cons_of_mem _ hx) h
      · have : x = p.1 := by simpa using h
        exact hN.1 (this ▸ hx)

theorem simple_trie_fst {c : Counter} (h : (keys c).Nodup) :
    (construct_simple_trie c).map Prod.fst = keys c := by
  unfold construct_simple_trie
  have := simple_trie_fold_fst c [] (by simp) h
  simpa using this

theorem keys_exactStep {c : Counter} {seq m : Sequence}
    (hseq : seq ∈ keys c) (hm : m ∈ keys c) :
    keys (exactStep seq c m) = keys c := by
  unfold exactStep
  by_cases h : m.length = seq.length
  · rw [if_pos h]
  · rw [if_neg h]
    have h1 : keys (cset c seq (cget c seq + cget c m)) = keys c :=
      keys_cset_of_mem _ hseq
    rw [keys_cset_of_mem _ (by rw [h1]; exact hm), h1]

theorem keys_exactFold {seq : Sequence} (L : List Sequence) :
    ∀ {c : Counter}, seq ∈ keys c → (∀ m ∈ L, m ∈ keys c) →
      keys (L.foldl (exactStep seq) c) = keys c := by
  induction L with
  | nil => intro c _ _; rfl
  | cons m L ih =>
    intro c hseq hL
    rw [List.foldl_cons]
    have hk : keys (exactStep seq c m) = keys c :=
      keys_exactStep hseq (hL m (List.mem_cons_self _ _))
    rw [ih (by rw [hk]; exact hseq)
        (fun m' hm' => by rw [hk]; exact hL m' (List.mem_cons_of_mem _ hm')), hk]

theorem keys_exactSeq {c0 : Counter} (hN : (keys c0).Nodup) {c : Counter}
    (hkeys : keys c = keys c0) {seq : Sequence} (hseq : seq ∈ keys c0) :
    keys (exactSeq (construct_simple_trie c0) c seq) = keys c0 := by
  unfold exactSeq
  have hsub : ∀ m ∈ triefind_find seq (construct_simple_trie c0), m ∈ keys c := by
    intro m hm
    have h1 := List.mem_of_mem_filter hm
    rw [simple_trie_fst hN] at h1
    rw [hkeys]
    exact h1
  rw [keys_exactFold _ (by rw [hkeys]; exact hseq) hsub, hkeys]

theorem keys_exact_outer {c0 : Counter} (hN : (keys c0).Nodup)
    (ss : List Sequence) (hss : ∀ s ∈ ss, s ∈ keys c0) :
    ∀ {c : Counter}, keys c = keys c0 →
      keys (ss.foldl (exactSeq (construct_simple_trie c0)) c) = keys c0 := by
  induction ss with
  | nil => intro c h; exact h
  | cons s ss ih =>
    intro c h
    rw [List.foldl_cons]
    exact ih (fun s' h' => hss s' (List.mem_cons_of_mem _ h'))
      (keys_exactSeq hN h (hss s (List.mem_cons_self _ _)))

theorem keys_similarStep {c0 : Counter} {t : Trie}
    (hEnt : ∀ e ∈ t, TrieEntryOk c0 e) {seq : Sequence} (hseq : seq ∈ keys c0)
    {c : Counter} (hkeys : keys c = keys c0)
    {m : Sequence × TrieVal × Nat} (hm : (m.1, m.2.1) ∈ t) :
    keys (similarStep seq c m) = keys c := by
  unfold similarStep
  by_cases hskip : m.2.2 = 0 ∨ m.1 = seq
  · rw [if_pos hskip]
  · rw [if_neg hskip]
    have hseqc : seq ∈ keys c := by rw [hkeys]; exact hseq
    cases hv : m.2.1 with
    | canon w =>
      have hk : m.1 ∈ keys c := by
        rcases hEnt _ hm with h | ⟨p, hp, _⟩
        · rw [hkeys]
          exact h.2
        · rw [hv] at hp
          exact TrieVal.noConfusion hp
      have h1 : keys (cset c seq (cget c seq + cget c m.1)) = keys c :=
        keys_cset_of_mem _ hseqc
      rw [keys_cset_of_mem _ (by rw [h1]; exact hk), h1]
    | sub p =>
      have hp : p ∈ keys c := by
        rcases hEnt _ hm with h | ⟨p', hp', hmem, _⟩
        · rw [hv] at h
          exact TrieVal.noConfusion h.1
        · rw [hv] at hp'
          have hpp : p' = p := by
            injection hp' with h
            exact h.symm
          rw [hkeys]
          exact hpp ▸ hmem
      have h1 : keys (cset c p (cget c p + cget c seq)) = keys c :=
        keys_cset_of_mem _ hp
      rw [keys_cset_of_mem _ (by rw [h1]; exact hseqc), h1]

theorem keys_similarFold {c0 : Counter} {t : Trie}
    (hEnt : ∀ e ∈ t, TrieEntryOk c0 e) {seq : Sequence} (hseq : seq ∈ keys c0)
    (L : List (Sequence × TrieVal × Nat)) (hL : ∀ m ∈ L, (m.1, m.2.1) ∈ t) :
    ∀ {c : Counter}, keys c = keys c0 →
      keys (L.foldl (similarStep seq) c) = keys c0 := by
  induction L with
  | nil => intro c h; exact h
  | cons m L ih =>
    intro c h
    rw [List.foldl_cons]
    have hk := keys_similarStep hEnt hseq h (hL m (List.mem_cons_self _ _))
    exact ih (fun m' hm' => hL m' (List.mem_cons_of_mem _ hm')) (hk.trans h)

theorem keys_similarSeq {c0 : Counter} {t : Trie}
    (hEnt : ∀ e ∈ t, TrieEntryOk c0 e) (n : Nat) {c : Counter}
    (hkeys : keys c = keys c0) {seq : Sequence} (hseq : seq ∈ keys c0) :
    keys (similarSeq t n c seq) = keys c0 := by
  unfold similarSeq
  by_cases h0 : cget c seq = 0
  · rw [if_pos h0]
    exact hkeys
  · rw [if_neg h0]
    refine keys_similarFold hEnt hseq _ ?_ hkeys
    intro m hm
    exact (mem_get_approximate (mem_unique_everseen hm)).1

theorem keys_similar_outer {c0 : Counter} {t : Trie}
    (hEnt : ∀ e ∈ t, TrieEntryOk c0 e) (n : Nat) (ss : List Sequence)
    (hss : ∀ s ∈ ss, s ∈ keys c0) :
    ∀ {c : Counter}, keys c = keys c0 →
      keys (ss.foldl (similarSeq t n) c) = keys c0 := by
  induction ss with
  | nil => intro c h; exact h
  | cons s ss ih =>
    intro c h
    rw [List.foldl_cons]
    exact ih (fun s' h' => hss s' (List.mem_cons_of_mem _ h'))
      (keys_similarSeq hEnt n h (hss s (List.mem_cons_self _ _)))

theorem cget_cstrip_eq {c : Counter} (h : (keys c).Nodup) (x : Sequence) :
    cget (cstrip c) x = if 0 < cget c x then cget c x else 0 := by
  induction c with
  | nil => simp [cstrip, cget]
  | cons p rest ih =>
    rw [keys_cons, List.nodup_cons] at h
    rw [cstrip_cons, cget_cons]
    by_cases hp : p.1 = x
    · subst hp
      by_cases hv : 0 < p.2
      · simp [hv, cget_cons]
      · rw [if_neg hv, if_pos rfl, if_neg hv]
        apply cget_eq_zero_of_not_mem
        intro hmem
        exact h.1 ((keys_cstrip_sublist rest).mem hmem)
    · by_cases hv : 0 < p.2
      · rw [if_pos hv, cget_cons, if_neg hp, if_neg hp, ih h.2]
      · rw [if_neg hv, if_neg hp, ih h.2]

theorem keys_cstrip_char {c0 c' : Counter} (hN : (keys c0).Nodup)
    (hk : keys c' = keys c0) (x : Sequence) :
    x ∈ keys (cstrip c') ↔ x ∈ keys c0 ∧ 0 < cget (cstrip c') x := by
  have hN' : (keys c').Nodup := by rw [hk]; exact hN
  rw [mem_keys_cstrip hN', hk, cget_cstrip_eq hN']
  constructor
  · rintro ⟨hx, hpos⟩
    rw [if_pos hpos]
    exact ⟨hx, hpos⟩
  · rintro ⟨hx, hpos⟩
    by_cases hc : 0 < cget c' x
    · exact ⟨hx, hc⟩
    · rw [if_neg hc] at hpos
      omega

/-! ## Claim C5: merged-away keys are removed, not kept at zero -/

/-- C5 counterexample: on table `{"AAAA": 3, "AAAAGG": 2}`, `AAAA` is merged
into `AAAAGG` and then dropped by the final `counter += Counter()` step:
it is absent from the returned table, so the key domain is not preserved. -/
theorem C5_counterexample :
    seqAAAA ∈ keys exactPair ∧
    seqAAAA ∉ keys (process_exact_substring exactPair
        (construct_simple_trie exactPair)) := by decide

/-- C5 (amended): a merged-away key is removed from the returned table (the
final `counter += Counter()` drops all non-positive counts) rather than
kept with count 0: for the Exact Substring Collapser and the Approximate
Clusterer alike, the returned key domain is exactly the set of input keys
whose final count is positive. -/
theorem C5_zeroed_keys_removed (c : Counter) (hN : (keys c).Nodup) (n : Nat) :
    (∀ x, x ∈ keys (process_exact_substring c (construct_simple_trie c)) ↔
      x ∈ keys c ∧
        0 < cget (process_exact_substring c (construct_simple_trie c)) x) ∧
    (∀ x, x ∈ keys (process_similar c (construct_complex_trie c none) n) ↔
      x ∈ keys c ∧
        0 < cget (process_similar c (construct_complex_trie c none) n) x) := by
  constructor
  · intro x
    unfold process_exact_substring
    exact keys_cstrip_char hN
      (keys_exact_outer hN _ (fun s hs => (mem_sortLenDesc _ s).mp hs) rfl) x
  · intro x
    unfold process_similar
    exact keys_cstrip_char hN
      (keys_similar_outer (complex_trie_entryOk c none) n _
        (fun s hs => (mem_sortLenDesc _ s).mp hs) rfl) x

theorem C5_zeroed_keys_removed_witness :
    seqTTTT ∈ keys (process_exact_substring specTable
        (construct_simple_trie specTable)) ↔
      seqTTTT ∈ keys specTable ∧
        0 < cget (process_exact_substring specTable
          (construct_simple_trie specTable)) seqTTTT :=
  (C5_zeroed_keys_removed specTable (by decide) 1).1 seqTTTT

/-! ## Claim C7: idempotence of the exact substring collapse -/

theorem mem_triefind_simple {c0 : Counter} (hN : (keys c0).Nodup)
    (s m : Sequence) :
    m ∈ triefind_find s (construct_simple_trie c0) ↔ m ∈ keys c0 ∧ m <:+: s := by
  unfold triefind_find
  rw [simple_trie_fst hN, List.mem_filter, decide_eq_true_eq]

theorem exact_fold_cget_ne (seq : Sequence) (L : List Sequence) :
    ∀ (c : Counter) (x : Sequence), x ≠ seq →
      cget (L.foldl (exactStep seq) c) x
        = if x ∈ L ∧ x.length ≠ seq.length then 0 else cget c x := by
  induction L with
  | nil =>
    intro c x hx
    simp
  | cons m L ih =>
    intro c x hx
    rw [List.foldl_cons, ih _ x hx]
    by_cases hm : m.length = seq.length
    · have hstep : exactStep seq c m = c := by
        unfold exactStep
        rw [if_pos hm]
      rw [hstep]
      by_cases hL : x ∈ L ∧ x.length ≠ seq.length
      · rw [if_pos hL, if_pos ⟨List.mem_cons_of_mem _ hL.1, hL.2⟩]
      · rw [if_neg hL, if_neg ?_]
        rintro ⟨hmem, hne⟩
        rcases List.mem_cons.mp hmem with he | he
        · rw [he] at hne
          exact hne hm
        · exact hL ⟨he, hne⟩
    · have hstep : exactStep seq c m
          = cset (cset c seq (cget c seq + cget c m)) m 0 := by
        unfold exactStep
        rw [if_neg hm]
      by_cases hL : x ∈ L ∧ x.length ≠ seq.length
      · rw [if_pos hL, if_pos ⟨List.mem_cons_of_mem _ hL.1, hL.2⟩]
      · rw [if_neg hL]
        by_cases hxm : x = m
        · subst hxm
          rw [if_pos ⟨List.mem_cons_self _ _, hm⟩, hstep, cget_cset_self]
        · rw [if_neg ?_, hstep, cget_cset_ne _ _ (fun h => hxm h.symm),
            cget_cset_ne _ _ (Ne.symm hx)]
          rintro ⟨hmem, hne⟩
          rcases List.mem_cons.mp hmem with he | he
          · exact hxm he
          · exact hL ⟨he, hne⟩

theorem exact_fold_cget_seq (seq : Sequence) (L : List Sequence) :
    ∀ c : Counter, (∀ m ∈ L, m.length ≠ seq.length → cget c m = 0) →
      cget (L.foldl (exactStep seq) c) seq = cget c seq := by
  induction L with
  | nil => intro c _; rfl
  | cons m L ih =>
    intro c hdon
    rw [List.foldl_cons]
    by_cases hm : m.length = seq.length
    · have hstep : exactStep seq c m = c := by
        unfold exactStep
        rw [if_pos hm]
      rw [hstep]
      exact ih c (fun m' hm' => hdon m' (List.mem_cons_of_mem _ hm'))
    · have hmne : m ≠ seq := fun he => hm (he ▸ rfl)
      have hz : cget c m = 0 := hdon m (List.mem_cons_self _ _) hm
      have hstep : exactStep seq c m
          = cset (cset c seq (cget c seq + cget c m)) m 0 := by
        unfold exactStep
        rw [if_neg hm]
      have hpres : cget (exactStep seq c m) seq = cget c seq := by
        rw [hstep, cget_cset_ne _ _ hmne, cget_cset_self, hz, Nat.add_zero]
      rw [ih _ ?_, hpres]
      intro m' hm' hne'
      have hm'ne : m' ≠ seq := fun he => hne' (he ▸ rfl)
      by_cases hmm : m' = m
      · subst hmm
        rw [hstep, cget_cset_self]
      · rw [hstep, cget_cset_ne _ _ (fun h => hmm h.symm),
          cget_cset_ne _ _ (Ne.symm hm'ne)]
        exact hdon m' (List.mem_cons_of_mem _ hm') hne'

theorem exact_fold_all_len_eq (seq : Sequence) (L : List Sequence)
    (h : ∀ m ∈ L, m.length = seq.length) (c : Counter) :
    L.foldl (exactStep seq) c = c := by
  induction L with
  | nil => rfl
  | cons m L ih =>
    rw [List.foldl_cons]
    have hstep : exactStep seq c m = c := by
      unfold exactStep
      rw [if_pos (h m (List.mem_cons_self _ _))]
    rw [hstep]
    exact ih (fun m' hm' => h m' (List.mem_cons_of_mem _ hm'))

theorem exact_outer_inv (c0 : Counter) (hN : (keys c0).Nodup) :
    ∀ (ss : List Sequence) (c : Counter), (∀ s ∈ ss, s ∈ keys c0) →
      (∀ a b : Sequence, a ∈ keys c0 → b ∈ keys c0 → a <:+: b →
        a.length < b.length → b ∉ ss → cget c a = 0) →
      ∀ a b : Sequence, a ∈ keys c0 → b ∈ keys c0 → a <:+: b →
        a.length < b.length →
        cget (ss.foldl (exactSeq (construct_simple_trie c0)) c) a = 0 := by
  intro ss
  induction ss with
  | nil =>
    intro c _ hinv a b ha hb hinf hlen
    exact hinv a b ha hb hinf hlen (by simp)
  | cons s ss ih =>
    intro c hmem hinv a b ha hb hinf hlen
    rw [List.foldl_cons]
    refine ih _ (fun x hx => hmem x (List.mem_cons_of_mem _ hx)) ?_ a b ha hb hinf hlen
    intro a' b' ha' hb' hinf' hlen' hbss
    unfold exactSeq
    by_cases hbs : b' = s
    · subst hbs
      have ha'ne : a' ≠ b' := fun he => by
        rw [he] at hlen'
        omega
      rw [exact_fold_cget_ne _ _ _ _ ha'ne, if_pos ?_]
      refine ⟨(mem_triefind_simple hN b' a').mpr ⟨ha', hinf'⟩, ?_⟩
      omega
    · have hbnot : b' ∉ s :: ss := by
        intro hb'
        rcases List.mem_cons.mp hb' with h | h
        · exact hbs h
        · exact hbss h
      by_cases has : a' = s
      · subst has
        rw [exact_fold_cget_seq]
        · exact hinv a' b' ha' hb' hinf' hlen' hbnot
        · intro m hm hne
          rcases (mem_triefind_simple hN a' m).mp hm with ⟨hmk, hminf⟩
          have hmlt : m.length < a'.length := by
            have := hminf.length_le
            omega
          exact hinv m b' hmk hb' (hminf.trans hinf') (by omega) hbnot
      · rw [exact_fold_cget_ne _ _ _ _ has]
        by_cases hc : a' ∈ triefind_find s (construct_simple_trie c0)
            ∧ a'.length ≠ s.length
        · rw [if_pos hc]
        · rw [if_neg hc]
          exact hinv a' b' ha' hb' hinf' hlen' hbnot

theorem exact_pass_id {r : Counter} (hNr : (keys r).Nodup)
    (hnopair : ∀ a b : Sequence, a ∈ keys r → b ∈ keys r → a <:+: b →
      a.length < b.length → False) :
    ∀ ss : List Sequence, (∀ s ∈ ss, s ∈ keys r) →
      ss.foldl (exactSeq (construct_simple_trie r)) r = r := by
  intro ss
  induction ss with
  | nil => intro _; rfl
  | cons s ss ih =>
    intro hmem
    rw [List.foldl_cons]
    have hid : exactSeq (construct_simple_trie r) r s = r := by
      unfold exactSeq
      apply exact_fold_all_len_eq
      intro m hm
      rcases (mem_triefind_simple hNr s m).mp hm with ⟨hmk, hminf⟩
      have hle := hminf.length_le
      rcases Nat.lt_or_ge m.length s.length with hlt | hge
      · exact absurd hlt
          (fun hlt => hnopair m s hmk (hmem s (List.mem_cons_self _ _)) hminf hlt)
      · omega
    rw [hid]
    exact ih (fun x hx => hmem x (List.mem_cons_of_mem _ hx))

/-- C7: the Exact Substring Collapser is idempotent up to index
reconstruction: running it a second time on its own output, with a
single-resolution trie freshly rebuilt from that output, returns the output
unchanged. -/
theorem C7_exact_collapse_idempotent (c : Counter) (hN : (keys c).Nodup) :
    process_exact_substring
        (process_exact_substring c (construct_simple_trie c))
        (construct_simple_trie (process_exact_substring c (construct_simple_trie c)))
      = process_exact_substring c (construct_simple_trie c) := by
  set F := (sortLenDesc (keys c)).foldl (exactSeq (construct_simple_trie c)) c with hF
  have hr : process_exact_substring c (construct_simple_trie c) = cstrip F := rfl
  have hkeysF : keys F = keys c :=
    keys_exact_outer hN _ (fun s hs => (mem_sortLenDesc _ s).mp hs) rfl
  have hNF : (keys F).Nodup := by
    rw [hkeysF]
    exact hN
  have hNr : (keys (cstrip F)).Nodup := (keys_cstrip_sublist F).nodup hNF
  have hzero : ∀ a b : Sequence, a ∈ keys c → b ∈ keys c → a <:+: b →
      a.length < b.length → cget F a = 0 := by
    intro a b ha hb hinf hlen
    refine exact_outer_inv c hN _ c (fun s hs => (mem_sortLenDesc _ s).mp hs)
      ?_ a b ha hb hinf hlen
    intro a' b' _ hb' _ _ hbss
    exact absurd ((mem_sortLenDesc _ b').mpr hb') hbss
  have hnopair : ∀ a b : Sequence, a ∈ keys (cstrip F) → b ∈ keys (cstrip F) →
      a <:+: b → a.length < b.length → False := by
    intro a b ha hb hinf hlen
    have ha' := (mem_keys_cstrip hNF a).mp ha
    have hb' := (mem_keys_cstrip hNF b).mp hb
    have hz := hzero a b (hkeysF ▸ ha'.1) (hkeysF ▸ hb'.1) hinf hlen
    omega
  rw [hr]
  unfold process_exact_substring
  rw [exact_pass_id hNr hnopair _ (fun s hs => (mem_sortLenDesc _ s).mp hs),
    cstrip_idem]

theorem C7_exact_collapse_idempotent_witness :
    process_exact_substring
        (process_exact_substring specTable (construct_simple_trie specTable))
        (construct_simple_trie
          (process_exact_substring specTable (construct_simple_trie specTable)))
      = process_exact_substring specTable (construct_simple_trie specTable) :=
  C7_exact_collapse_idempotent specTable (by decide)

/-! ## Claim C4: which entry a full sequence's own key ends up with -/

theorem tgetEntry_append_single {t : Trie} {k : Sequence} {v : TrieVal}
    (e : Sequence × TrieVal) (h : tgetEntry (t ++ [e]) k = some v) :
    tgetEntry t k = some v ∨ (tgetEntry t k = none ∧ k = e.1 ∧ v = e.2) := by
  cases ho : tgetEntry t k with
  | some v' =>
    rw [tgetEntry_append_of_some _ ho] at h
    left
    exact h
  | none =>
    rw [tgetEntry_append_of_none _ ho] at h
    right
    cases e with
    | mk ek ev =>
      rw [tgetEntry_cons] at h
      by_cases hek : ek = k
      · rw [if_pos hek] at h
        refine ⟨rfl, hek.symm, ?_⟩
        injection h with h'
        exact h'.symm
      · rw [if_neg hek] at h
        exact absurd h (by simp [tgetEntry])

theorem trieWindowStep_origin {c : Counter} {seq : Sequence} {t : Trie}
    {w k : Sequence} {v : TrieVal}
    (h : tgetEntry (trieWindowStep c seq t w) k = some v) :
    tgetEntry t k = some v ∨
      (tgetEntry t k = none ∧
        ((k = seq ∧ v = TrieVal.canon (cget c seq)) ∨
          (v = TrieVal.sub seq ∧ k = w ∧ w ≠ seq))) := by
  unfold trieWindowStep at h
  by_cases hw : thas t w = true
  · rw [if_pos hw] at h
    exact Or.inl h
  · have hw' : thas t w = false := by simpa using hw
    rw [if_neg (by simp [hw'])] at h
    by_cases hws : w = seq
    · rw [if_pos hws, tput_of_not_has _ (hws ▸ hw')] at h
      rcases tgetEntry_append_single _ h with h' | ⟨hn, hk, hv⟩
      · exact Or.inl h'
      · exact Or.inr ⟨hn, Or.inl ⟨hk, hv⟩⟩
    · rw [if_neg hws, tput_of_not_has _ hw'] at h
      rcases tgetEntry_append_single _ h with h' | ⟨hn, hk, hv⟩
      · exact Or.inl h'
      · exact Or.inr ⟨hn, Or.inr ⟨hv, hk, hws⟩⟩

theorem foldWindows_origin {c : Counter} {seq : Sequence} (L : List Sequence)
    (hL : ∀ w ∈ L, w <:+: seq) :
    ∀ (t : Trie) (k : Sequence) (v : TrieVal),
      tgetEntry (L.foldl (trieWindowStep c seq) t) k = some v →
      tgetEntry t k = some v ∨
        (tgetEntry t k = none ∧
          ((k = seq ∧ v = TrieVal.canon (cget c seq)) ∨
            (v = TrieVal.sub seq ∧ k <:+: seq ∧ k ≠ seq))) := by
  induction L with
  | nil => exact fun t k v h => Or.inl h
  | cons w L ih =>
    intro t k v h
    rw [List.foldl_cons] at h
    rcases ih (fun w' hw' => hL w' (List.mem_cons_of_mem _ hw')) _ k v h with
      h₁ | ⟨hn₁, hnew⟩
    · rcases trieWindowStep_origin h₁ with h₂ | ⟨hn₂, hnew₂⟩
      · exact Or.inl h₂
      · refine Or.inr ⟨hn₂, ?_⟩
        rcases hnew₂ with ⟨hk, hv⟩ | ⟨hv, hk, hwne⟩
        · exact Or.inl ⟨hk, hv⟩
        · exact Or.inr ⟨hv, hk ▸ hL w (List.mem_cons_self _ _), hk ▸ hwne⟩
    · cases ho : tgetEntry t k with
      | some v' => exact absurd (trieWindowStep_stable w ho) (by rw [hn₁]; simp)
      | none => exact Or.inr ⟨rfl, hnew⟩

theorem trieLenStep_origin {c : Counter} {seq : Sequence} {l : Nat} {t : Trie}
    {k : Sequence} {v : TrieVal}
    (h : tgetEntry (trieLenStep c seq t l) k = some v) :
    tgetEntry t k = some v ∨
      (tgetEntry t k = none ∧
        ((k = seq ∧ v = TrieVal.canon (cget c seq)) ∨
          (v = TrieVal.sub seq ∧ k <:+: seq ∧ k ≠ seq))) := by
  unfold trieLenStep at h
  by_cases hl : seq.length < l
  · rw [if_pos hl] at h
    exact Or.inl h
  · rw [if_neg hl] at h
    exact foldWindows_origin _ (fun w hw => (mem_chunker hw).1) t k v h

theorem trieSeqStep_origin {c : Counter} {seq : Sequence} (ls : List Nat) :
    ∀ (t : Trie) (k : Sequence) (v : TrieVal),
      tgetEntry (trieSeqStep c ls t seq) k = some v →
      tgetEntry t k = some v ∨
        (tgetEntry t k = none ∧
          ((k = seq ∧ v = TrieVal.canon (cget c seq)) ∨
            (v = TrieVal.sub seq ∧ k <:+: seq ∧ k ≠ seq))) := by
  induction ls with
  | nil => exact fun t k v h => Or.inl h
  | cons l ls ih =>
    intro t k v h
    unfold trieSeqStep at h ih
    rw [List.foldl_cons] at h
    rcases ih _ k v h with h₁ | ⟨hn₁, hnew⟩
    · exact trieLenStep_origin h₁
    · cases ho : tgetEntry t k with
      | some v' => exact absurd (trieLenStep_stable l ho) (by rw [hn₁]; simp)
      | none => exact Or.inr ⟨rfl, hnew⟩

theorem complex_fold_inv (c : Counter) (ls : List Nat)
    (hls : ∀ k ∈ keys c, k.length ∈ ls) :
    ∀ (rem : List Sequence) (t : Trie),
      rem.Pairwise (fun a b => b.length ≤ a.length) →
      rem.Nodup →
      (∀ x ∈ rem, x ∈ keys c) →
      (∀ k v, tgetEntry t k = some v →
        (v = TrieVal.canon (cget c k) ∧ k ∈ keys c ∧ k ∉ rem) ∨
        (∃ p, v = TrieVal.sub p ∧ p ∈ keys c ∧ k.length < p.length ∧ k <:+: p)) →
      (∀ s, s ∈ keys c → s ∉ rem → thas t s = true) →
      (∀ s b, s ∈ keys c → b ∈ keys c → b ∉ rem → s <:+: b →
        s.length < b.length → thas t s = true) →
      (∀ s x, tgetEntry t s = some (TrieVal.canon x) →
        ∀ b, b ∈ keys c → b ∉ rem → ¬(s <:+: b ∧ s.length < b.length)) →
      (∀ k, k ∈ keys c → k ∉ rem → ∀ y ∈ rem, y.length ≤ k.length) →
      (∀ s, s ∈ keys c → thas (rem.foldl (trieSeqStep c ls) t) s = true) ∧
      (∀ k v, tgetEntry (rem.foldl (trieSeqStep c ls) t) k = some v →
        (v = TrieVal.canon (cget c k) ∧ k ∈ keys c) ∨
        (∃ p, v = TrieVal.sub p ∧ p ∈ keys c ∧ k.length < p.length ∧ k <:+: p)) ∧
      (∀ s x, tgetEntry (rem.foldl (trieSeqStep c ls) t) s = some (TrieVal.canon x) →
        ∀ b, b ∈ keys c → ¬(s <:+: b ∧ s.length < b.length)) := by
  intro rem
  induction rem with
  | nil =>
    intro t _ _ _ hA hB _ hD _
    refine ⟨fun s hs => hB s hs (by simp), fun k v hk => ?_, fun s x hs b hb => ?_⟩
    · rcases hA k v hk with ⟨hv, hkc, _⟩ | h
      · exact Or.inl ⟨hv, hkc⟩
      · exact Or.inr h
    · exact hD s x hs b hb (by simp)
  | cons s rem ih =>
    intro t hsort hnd hmem hA hB hC hD hE
    rw [List.pairwise_cons] at hsort
    rw [List.nodup_cons] at hnd
    have hsc : s ∈ keys c := hmem s (List.mem_cons_self _ _)
    rw [List.foldl_cons]
    have hself : thas (trieSeqStep c ls t s) s = true := by
      refine trieSeqStep_has ls (hls s hsc) (by omega) ?_ t
      rw [chunker_self]
      exact List.mem_cons_self _ _
    have hwin : ∀ w, w ∈ keys c → w <:+: s → w.length < s.length →
        thas (trieSeqStep c ls t s) w = true := by
      intro w hwc hinf hlen
      exact trieSeqStep_has ls (hls w hwc) (by omega) (infix_mem_chunker hinf) t
    have hstable : ∀ {k : Sequence} {v : TrieVal}, tgetEntry t k = some v →
        tgetEntry (trieSeqStep c ls t s) k = some v :=
      fun h => trieSeqStep_stable ls s h
    have hstableB : ∀ {x : Sequence}, thas t x = true →
        thas (trieSeqStep c ls t s) x = true := by
      intro x hx
      rcases thas_true_exists hx with ⟨v, hv⟩
      exact thas_of_tgetEntry (hstable hv)
    refine ih (trieSeqStep c ls t s) hsort.2 hnd.2
      (fun x hx => hmem x (List.mem_cons_of_mem _ hx)) ?_ ?_ ?_ ?_ ?_
    · -- invariant A for the new state
      intro k v hk
      rcases trieSeqStep_origin ls t k v hk with hold | ⟨hnone, hnew⟩
      · rcases hA k v hold with ⟨hv, hkc, hkrem⟩ | h
        · exact Or.inl ⟨hv, hkc, fun h' => hkrem (List.mem_cons_of_mem _ h')⟩
        · exact Or.inr h
      · rcases hnew with ⟨hk', hv⟩ | ⟨hv, hinf, hne⟩
        · subst hk'
          exact Or.inl ⟨hv, hsc, hnd.1⟩
        · have hlen : k.length < s.length := by
            rcases Nat.lt_or_ge k.length s.length with h' | h'
            · exact h'
            · exact absurd (hinf.eq_of_length_le h') hne
          exact Or.inr ⟨s, hv, hsc, hlen, hinf⟩
    · -- invariant B for the new state
      intro x hx hxrem
      by_cases hxs : x = s
      · subst hxs
        exact hself
      · have : x ∉ s :: rem := by
          intro h
          rcases List.mem_cons.mp h with h | h
          · exact hxs h
          · exact hxrem h
        exact hstableB (hB x hx this)
    · -- invariant C for the new state
      intro x b hx hb hbrem hinf hlen
      by_cases hbs : b = s
      · subst hbs
        exact hwin x hx hinf hlen
      · have : b ∉ s :: rem := by
          intro h
          rcases List.mem_cons.mp h with h | h
          · exact hbs h
          · exact hbrem h
        exact hstableB (hC x b hx hb this hinf hlen)
    · -- invariant D for the new state
      intro x y hx b hb hbrem hcont
      rcases trieSeqStep_origin ls t x (TrieVal.canon y) hx with hold | ⟨hnone, hnew⟩
      · by_cases hbs : b = s
        · subst hbs
          rcases hA x (TrieVal.canon y) hold with ⟨_, hxc, hxrem⟩ | ⟨p, hp, _⟩
          · have := hE x hxc hxrem b (List.mem_cons_self _ _)
            omega
          · exact TrieVal.noConfusion hp
        · have : b ∉ s :: rem := by
            intro h
            rcases List.mem_cons.mp h with h | h
            · exact hbs h
            · exact hbrem h
          exact hD x y hold b hb this hcont
      · rcases hnew with ⟨hk', _⟩ | ⟨hv, _, _⟩
        · by_cases hbs : b = s
          · rw [hk', hbs] at hcont
            omega
          · have hbnot : b ∉ s :: rem := by
              intro h
              rcases List.mem_cons.mp h with h | h
              · exact hbs h
              · exact hbrem h
            have hxc : x ∈ keys c := by
              rw [hk']
              exact hsc
            have := hC x b hxc hb hbnot hcont.1 hcont.2
            unfold thas at this
            rw [hnone] at this
            simp at this
        · exact TrieVal.noConfusion hv
    · -- invariant E for the new state
      intro k hk hkrem y hy
      by_cases hks : k = s
      · subst hks
        exact hsort.1 y hy
      · have : k ∉ s :: rem := by
          intro h
          rcases List.mem_cons.mp h with h | h
          · exact hks h
          · exact hkrem h
        exact hE k hk this y (List.mem_cons_of_mem _ hy)

/-- C4 counterexample: on the spec's own scenario table
`{"AAAA": 3, "AAAAGG": 2, "TTTT": 5}` with default lengths, the key `AAAA`
maps to `SubsequenceOf("AAAAGG")`, not to `Canonical(3)`: window lengths
are iterated shortest-first, so `AAAAGG`'s 4-windows (including `AAAA`)
are registered before `AAAA`'s own turn. -/
theorem C4_counterexample :
    tgetEntry (construct_complex_trie specTable none) seqAAAA
      = some (TrieVal.sub seqAAAAGG) ∧ seqAAAA ∈ keys specTable := by decide

/-- C4 (amended): in the multi-resolution trie with default lengths, a full
sequence's own key maps to `Canonical` with its count precisely when no
strictly longer table sequence contains it as a contiguous substring;
otherwise the key maps to `SubsequenceOf` of some strictly longer table
sequence containing it. -/
theorem C4_canonical_characterisation (c : Counter) (hN : (keys c).Nodup)
    (s : Sequence) (hs : s ∈ keys c) :
    ((¬ ∃ b, b ∈ keys c ∧ s <:+: b ∧ s.length < b.length) →
      tgetEntry (construct_complex_trie c none) s
        = some (TrieVal.canon (cget c s))) ∧
    ((∃ b, b ∈ keys c ∧ s <:+: b ∧ s.length < b.length) →
      ∃ p, tgetEntry (construct_complex_trie c none) s = some (TrieVal.sub p) ∧
        p ∈ keys c ∧ s.length < p.length ∧ s <:+: p) := by
  have hls : ∀ k ∈ keys c,
      k.length ∈ sortedSet ((sortLenDesc (keys c)).map List.length) := by
    intro k hk
    rw [mem_sortedSet, List.mem_map]
    exact ⟨k, (mem_sortLenDesc _ k).mpr hk, rfl⟩
  have hinv := complex_fold_inv c (sortedSet ((sortLenDesc (keys c)).map List.length))
    hls (sortLenDesc (keys c)) []
    (sortLenDesc_pairwise _) (nodup_sortLenDesc hN)
    (fun x hx => (mem_sortLenDesc _ x).mp hx)
    (fun k v hk => by simp [tgetEntry] at hk)
    (fun x hx hxrem => absurd ((mem_sortLenDesc _ x).mpr hx) hxrem)
    (fun x b hx hb hbrem _ _ => absurd ((mem_sortLenDesc _ b).mpr hb) hbrem)
    (fun x y hx => by simp [tgetEntry] at hx)
    (fun k hk hkrem => absurd ((mem_sortLenDesc _ k).mpr hk) hkrem)
  rcases hinv with ⟨hAll, hEnt, hCanon⟩
  have hT : construct_complex_trie c none
      = (sortLenDesc (keys c)).foldl
          (trieSeqStep c (sortedSet ((sortLenDesc (keys c)).map List.length))) [] := rfl
  rcases thas_true_exists (hAll s hs) with ⟨v, hv⟩
  constructor
  · intro hno
    cases v with
    | canon x =>
      rcases hEnt s (TrieVal.canon x) hv with ⟨hx, _⟩ | ⟨p, hp, _⟩
      · rw [hT, hv, hx]
      · exact TrieVal.noConfusion hp
    | sub p =>
      rcases hEnt s (TrieVal.sub p) hv with ⟨hx, _⟩ | ⟨p', hp', hpc, hlen, hinf⟩
      · exact TrieVal.noConfusion hx
      · have hpp : p' = p := by
          injection hp' with h
          exact h.symm
        exact absurd ⟨p, hpp ▸ hpc, hpp ▸ hinf, hpp ▸ hlen⟩ hno
  · rintro ⟨b, hb, hinf, hlen⟩
    cases v with
    | canon x => exact absurd ⟨hinf, hlen⟩ (hCanon s x hv b hb)
    | sub p =>
      rcases hEnt s (TrieVal.sub p) hv with ⟨hx, _⟩ | ⟨p', hp', hpc, hlen', hinf'⟩
      · exact TrieVal.noConfusion hx
      · have hpp : p' = p := by
          injection hp' with h
          exact h.symm
        exact ⟨p, by rw [hT, hv], hpp ▸ hpc, hpp ▸ hlen', hpp ▸ hinf'⟩

theorem C4_canonical_characterisation_witness :
    tgetEntry (construct_complex_trie specTable none) seqTTTT
      = some (TrieVal.canon (cget specTable seqTTTT)) ∧
    ∃ p, tgetEntry (construct_complex_trie specTable none) seqAAAA
        = some (TrieVal.sub p) ∧ p ∈ keys specTable ∧
        seqAAAA.length < p.length ∧ seqAAAA <:+: p :=
  ⟨(C4_canonical_characterisation specTable (by decide) seqTTTT (by decide)).1
      (by decide),
   (C4_canonical_characterisation specTable (by decide) seqAAAA (by decide)).2
      ⟨seqAAAAGG, by decide, by decide, by decide⟩⟩
